import Mathlib

/-!
Verification of `sniff-scripts/convert_safety_comments.py`.

The script converts Rust `// SAFETY:` line-comment blocks into doc comments
(`/// ...`) across a repository.  We embed the pure transformation
(`transform_content`) and the repository walk (`process_repo`) shallowly:
text is a `List Char`, Python's `str.splitlines` is modelled with its full
set of line-boundary characters, the two regular expressions
`SAFETY_START_RE` and `FOLLOWING_COMMENT_RE` are modelled as functions on
lines, and the filesystem is a finite tree.
-/

set_option autoImplicit false

namespace ConvertSafety

/-- The line-boundary characters recognised by Python `str.splitlines`:
LF, CR (CRLF is one boundary), VT, FF, FS, GS, RS, NEL, LS, PS. -/
def isLineBreak (c : Char) : Bool :=
  c = '\n' || c = '\r' || c = '\x0b' || c = '\x0c' ||
  c = '\x1c' || c = '\x1d' || c = '\x1e' || c = '\x85' ||
  c = ' ' || c = ' '

/-- The characters matched by Python's `\s` on `str` patterns
(`Py_UNICODE_ISSPACE`). -/
def isPySpace (c : Char) : Bool :=
  c = ' ' || c = '\t' || c = '\n' || c = '\x0b' || c = '\x0c' || c = '\r' ||
  c = '\x1c' || c = '\x1d' || c = '\x1e' || c = '\x1f' ||
  c = '\x85' || c = '\xa0' || c = ' ' ||
  c = ' ' || c = ' ' || c = ' ' || c = ' ' ||
  c = ' ' || c = ' ' || c = ' ' || c = ' ' ||
  c = ' ' || c = ' ' || c = ' ' ||
  c = ' ' || c = ' ' || c = ' ' || c = ' ' || c = '　'

/-- Worker for `pySplitlines`: `acc` holds the current line reversed.
A final line is emitted only if nonempty input remains in `acc`;
a CRLF pair counts as a single boundary. -/
def pySplitlinesGo : List Char → List Char → List (List Char)
  | [], acc => if acc.isEmpty then [] else [acc.reverse]
  | [c], acc => if isLineBreak c then [acc.reverse] else [(c :: acc).reverse]
  | c :: d :: rest, acc =>
    if isLineBreak c then
      acc.reverse ::
        (if c = '\r' && d = '\n' then pySplitlinesGo rest []
         else pySplitlinesGo (d :: rest) [])
    else pySplitlinesGo (d :: rest) (c :: acc)

/-- Python `text.splitlines()` (keepends = False). -/
def pySplitlines (t : List Char) : List (List Char) :=
  pySplitlinesGo t []

/-- The literal tag `SAFETY:` of `SAFETY_START_RE`. -/
def safetyTag : List Char := ['S', 'A', 'F', 'E', 'T', 'Y', ':']

/-- Whether `.*$` (no DOTALL, no MULTILINE) matches a whole remaining
string: every character except possibly a final newline is not `\n`. -/
def dotStarEnd (t : List Char) : Bool :=
  !(t.dropLast.contains '\n')

/-- `SAFETY_START_RE = ^(?P<indent>\s*)//(?!/|!)\s*SAFETY:.*$` applied with
`re.match`; returns the captured `indent` group on success.  The greedy
`\s*` groups admit no backtracking because `/` and `S` are not whitespace,
so the maximal whitespace runs are the only candidates. -/
def safetyStartMatch (line : List Char) : Option (List Char) :=
  match line.dropWhile isPySpace with
  | '/' :: '/' :: '/' :: _ => none
  | '/' :: '/' :: '!' :: _ => none
  | '/' :: '/' :: rest2 =>
    if safetyTag.isPrefixOf (rest2.dropWhile isPySpace) &&
        dotStarEnd ((rest2.dropWhile isPySpace).drop safetyTag.length)
    then some (line.takeWhile isPySpace) else none
  | _ => none

/-- `FOLLOWING_COMMENT_RE = ^(?P<indent>\s*)//(?!/|!)(?P<rest>.*)$` applied
with `re.match`; returns the captured `indent` group on success. -/
def followingCommentMatch (line : List Char) : Option (List Char) :=
  match line.dropWhile isPySpace with
  | '/' :: '/' :: '/' :: _ => none
  | '/' :: '/' :: '!' :: _ => none
  | '/' :: '/' :: rest2 => if dotStarEnd rest2 then some (line.takeWhile isPySpace) else none
  | _ => none

/-- `indent + "///" + line[len(indent) + 2:]` — the rewrite applied to a
trigger or continuation line. -/
def convertLine (indent line : List Char) : List Char :=
  indent ++ ['/', '/', '/'] ++ line.drop (indent.length + 2)

/-- The rewrite an arbitrary line would receive in the continuation loop
(identity when `FOLLOWING_COMMENT_RE` does not match). -/
def contConvert (line : List Char) : List Char :=
  match followingCommentMatch line with
  | some indent => convertLine indent line
  | none => line

/-- The inner `while j < len(lines)` loop: consume the maximal run of
continuation lines, returning their converted forms and the remaining
lines. -/
def consumeFollowing : List (List Char) → List (List Char) × List (List Char)
  | [] => ([], [])
  | l :: rest =>
    match followingCommentMatch l with
    | none => ([], l :: rest)
    | some indent =>
      let r := consumeFollowing rest
      (convertLine indent l :: r.1, r.2)

/-- The outer `while i < len(lines)` loop of `transform_content`, with
explicit fuel (the cursor advances at least one line per iteration, so
`lines.length` fuel always suffices; see `transformLinesF_fuel_irrel`). -/
def transformLinesF : Nat → List (List Char) → List (List Char) × Bool
  | 0, ls => (ls, false)
  | _ + 1, [] => ([], false)
  | fuel + 1, l :: rest =>
    match safetyStartMatch l with
    | none =>
      let r := transformLinesF fuel rest
      (l :: r.1, r.2)
    | some indent =>
      let c := consumeFollowing rest
      let r := transformLinesF fuel c.2
      (convertLine indent l :: (c.1 ++ r.1), true)

/-- The line-scanning loop of `transform_content`. -/
def transformLines (ls : List (List Char)) : List (List Char) × Bool :=
  transformLinesF ls.length ls

/-- `"\n".join(out)`. -/
def joinNL : List (List Char) → List Char
  | [] => []
  | [l] => l
  | l :: l2 :: rest => l ++ '\n' :: joinNL (l2 :: rest)

/-- Python `text.endswith("\n")`. -/
def pyEndsWithNL (t : List Char) : Bool :=
  t.getLast? == some '\n'

/-- `transform_content(text)`: split into lines, convert `SAFETY:` blocks,
join with `"\n"`, restore a trailing newline if the input ended with one. -/
def transform_content (text : List Char) : List Char × Bool :=
  let lines := pySplitlines text
  let r := transformLines lines
  let result := joinNL r.1
  (if pyEndsWithNL text then result ++ ['\n'] else result, r.2)

/-- A line already in documentation-comment form: after optional leading
whitespace, `//` immediately followed by `/` or `!`. -/
def isDocComment (line : List Char) : Bool :=
  match line.dropWhile isPySpace with
  | '/' :: '/' :: '/' :: _ => true
  | '/' :: '/' :: '!' :: _ => true
  | _ => false

/-- A line that starts (after optional leading whitespace) with the plain
line-comment marker `//`. -/
def isCommentStart (line : List Char) : Bool :=
  match line.dropWhile isPySpace with
  | '/' :: '/' :: _ => true
  | _ => false

/-- Modelled from the spec: the trigger-line description of the claim,
"optional leading whitespace, the plain comment marker not immediately
followed by a third marker character or `!`, at most a single optional
whitespace character, and then the literal tag `SAFETY:`".  Used only to
compare the spec's wording against `SAFETY_START_RE`. -/
def specTriggerSingleWs (line : List Char) : Bool :=
  match line.dropWhile isPySpace with
  | '/' :: '/' :: '/' :: _ => false
  | '/' :: '/' :: '!' :: _ => false
  | '/' :: '/' :: rest2 =>
    safetyTag.isPrefixOf rest2 ||
      (match rest2 with
       | c :: r2 => isPySpace c && safetyTag.isPrefixOf r2
       | [] => false)
  | _ => false

/-- Strong induction on the length of a list. -/
def listLenInd {α : Type} {P : List α → Prop}
    (H : ∀ ls, (∀ ls2, ls2.length < ls.length → P ls2) → P ls) : ∀ ls, P ls
  | ls => H ls (fun ls2 hlt => listLenInd H ls2)
termination_by ls => ls.length
decreasing_by exact hlt

/-! ## The repository walk -/

/-- A source file of the modelled filesystem: its name, and the result of
`read_text` on it (`.error` carries the exception message when reading
fails for any reason). -/
structure SrcFile where
  name : String
  readResult : Except String (List Char)

mutual
/-- A directory of the modelled filesystem: name, subdirectories, files. -/
inductive FSTree where
  | dir : String → FSForest → List SrcFile → FSTree
/-- A list of subdirectories. -/
inductive FSForest where
  | nil : FSForest
  | cons : FSTree → FSForest → FSForest
end

/-- Name of a directory. -/
def treeName : FSTree → String
  | .dir n _ _ => n

mutual
/-- Number of directories in a tree (for induction). -/
def treeSize : FSTree → Nat
  | .dir _ subs _ => forestSize subs + 1
/-- Number of directories in a forest (for induction). -/
def forestSize : FSForest → Nat
  | .nil => 0
  | .cons s rest => treeSize s + forestSize rest
end

/-- The fixed `skip_names` set of `should_skip_dir`. -/
def skip_names : List String :=
  [".git", "target", ".cargo", ".hg", ".svn", ".idea", ".vscode", "node_modules"]

/-- `should_skip_dir(path)`: whether the final component of the path is in
the fixed skip set. -/
def should_skip_dir (path : List String) : Bool :=
  match path.getLast? with
  | some n => skip_names.contains n
  | none => false

/-- `fname.endswith(".rs")`. -/
def hasRsSuffix (s : String) : Bool :=
  ['.', 'r', 's'].isSuffixOf s.data

/-- Rendering of a relative path for diagnostics. -/
def pathStr (p : List String) : String :=
  String.intercalate "/" p

/-- The diagnostic `f"[skip] {fpath}: {e}"` emitted in verbose mode for an
unreadable file. -/
def mkSkipLog (p : List String) (e : String) : String :=
  "[skip] " ++ pathStr p ++ ": " ++ e

/-- The diagnostic `f"[update]{' (dry-run)' if dry_run else ''} {fpath}"`. -/
def mkUpdateLog (dry : Bool) (p : List String) : String :=
  "[update]" ++ (if dry then " (dry-run)" else "") ++ " " ++ pathStr p

/-- The observable outcome of (part of) the walk: the changed-file count,
the diagnostics printed, and the file writes performed. -/
structure Outcome where
  count : Nat
  logs : List String
  writes : List (List String × List Char)

/-- Sequential composition of outcomes. -/
def mergeOutcome (a b : Outcome) : Outcome :=
  ⟨a.count + b.count, a.logs ++ b.logs, a.writes ++ b.writes⟩

/-- Processing of a single directory entry by `process_repo`: skip non-`.rs`
names; on read failure emit a diagnostic iff verbose and continue; else
transform, and if changed count it, log if verbose or dry-run, and write
unless dry-run. -/
def processFile (dirpath : List String) (f : SrcFile) (dry verbose : Bool) : Outcome :=
  if hasRsSuffix f.name = false then ⟨0, [], []⟩
  else
    match f.readResult with
    | .error e => ⟨0, if verbose then [mkSkipLog (dirpath ++ [f.name]) e] else [], []⟩
    | .ok src =>
      if (transform_content src).2 then
        ⟨1, if verbose || dry then [mkUpdateLog dry (dirpath ++ [f.name])] else [],
         if dry then [] else [(dirpath ++ [f.name], (transform_content src).1)]⟩
      else ⟨0, [], []⟩

/-- The `for fname in filenames` loop. -/
def processFiles (dirpath : List String) (fs : List SrcFile) (dry verbose : Bool) : Outcome :=
  match fs with
  | [] => ⟨0, [], []⟩
  | f :: rest =>
    mergeOutcome (processFile dirpath f dry verbose) (processFiles dirpath rest dry verbose)

mutual
/-- `os.walk` top-down with in-place pruning: the current directory's files
first, then the non-pruned subdirectories. -/
def processDir : List String → FSTree → Bool → Bool → Outcome
  | dirpath, .dir _ subs files, dry, verbose =>
    mergeOutcome (processFiles dirpath files dry verbose)
      (processForest dirpath subs dry verbose)
/-- Walk over the subdirectories, pruning those whose name is in
`skip_names` before descending. -/
def processForest : List String → FSForest → Bool → Bool → Outcome
  | _, .nil, _, _ => ⟨0, [], []⟩
  | dirpath, .cons s rest, dry, verbose =>
    mergeOutcome
      (if should_skip_dir (dirpath ++ [treeName s]) then ⟨0, [], []⟩
       else processDir (dirpath ++ [treeName s]) s dry verbose)
      (processForest dirpath rest dry verbose)
end

/-- `process_repo(root, dry_run, verbose)`; paths are relative to the root
(the root directory itself is never skip-checked, matching `os.walk`). -/
def process_repo (t : FSTree) (dry verbose : Bool) : Outcome :=
  processDir [] t dry verbose

mutual
/-- The relative paths of the `.rs` files the walk reads. -/
def visitedPaths : List String → FSTree → List (List String)
  | dirpath, .dir _ subs files =>
    (files.filter (fun f => hasRsSuffix f.name)).map (fun f => dirpath ++ [f.name])
      ++ visitedForest dirpath subs
/-- The visited files of a forest, with pruning. -/
def visitedForest : List String → FSForest → List (List String)
  | _, .nil => []
  | dirpath, .cons s rest =>
    (if should_skip_dir (dirpath ++ [treeName s]) then []
     else visitedPaths (dirpath ++ [treeName s]) s) ++ visitedForest dirpath rest
end

/-- The files read by the whole walk. -/
def walkVisited (t : FSTree) : List (List String) :=
  visitedPaths [] t

/-- A concrete repository: `target/gen.rs` and `src/lib.rs` both hold a
SAFETY block; `target/` is pruned. -/
def demoTree : FSTree :=
  .dir "repo"
    (.cons (.dir "target" .nil [⟨"gen.rs", .ok "// SAFETY: g".data⟩])
      (.cons (.dir "src" .nil [⟨"lib.rs", .ok "// SAFETY: l".data⟩]) .nil))
    []

/-! ### Generic list helpers -/

theorem span_append (p : Char → Bool) (ws : List Char) (x : Char) (t : List Char)
    (hws : ∀ c ∈ ws, p c = true) (hx : p x = false) :
    (ws ++ x :: t).takeWhile p = ws ∧ (ws ++ x :: t).dropWhile p = x :: t := by
  induction ws with
  | nil => simp [List.takeWhile_cons, List.dropWhile_cons, hx]
  | cons a ws ih =>
    have ha : p a = true := hws a (by simp)
    have h2 := ih (fun c hc => hws c (by simp [hc]))
    simp [List.takeWhile_cons, List.dropWhile_cons, ha, h2.1, h2.2]

theorem isPrefixOf_app_self : ∀ (l t : List Char), l.isPrefixOf (l ++ t) = true
  | [], _ => by simp [List.isPrefixOf]
  | a :: l, t => by simp [List.isPrefixOf, isPrefixOf_app_self l t]

theorem append_drop_of_isPrefixOf :
    ∀ (l b : List Char), l.isPrefixOf b = true → b = l ++ b.drop l.length
  | [], _, _ => by simp
  | _ :: _, [], h => by simp [List.isPrefixOf] at h
  | a :: l, b :: bs, h => by
    simp only [List.isPrefixOf, Bool.and_eq_true, beq_iff_eq] at h
    obtain ⟨h1, h2⟩ := h
    subst h1
    simpa using append_drop_of_isPrefixOf l bs h2

theorem gl_cons {α : Type} (a : α) (l : List α) (h : l ≠ []) :
    (a :: l).getLast? = l.getLast? := by
  cases l with
  | nil => exact absurd rfl h
  | cons b l2 => exact List.getLast?_cons_cons

theorem gl_append {α : Type} (l r : List α) (h : r ≠ []) :
    (l ++ r).getLast? = r.getLast? := by
  induction l with
  | nil => rfl
  | cons a l ih =>
    have hne : l ++ r ≠ [] := by
      intro he
      exact h (List.append_eq_nil.mp he).2
    rw [List.cons_append, gl_cons a (l ++ r) hne, ih]

/-! ### Rewrite lemmas for `pySplitlinesGo` -/

theorem go_nil (acc : List Char) :
    pySplitlinesGo [] acc = if acc.isEmpty then [] else [acc.reverse] := rfl

theorem go_break (c : Char) (rest acc : List Char) (h : isLineBreak c = true)
    (h2 : c = '\r' → rest.head? ≠ some '\n') :
    pySplitlinesGo (c :: rest) acc = acc.reverse :: pySplitlinesGo rest [] := by
  cases rest with
  | nil => simp [pySplitlinesGo, h]
  | cons d rest2 =>
    have hd : (c = '\r' && d = '\n') = false := by
      by_cases hc : c = '\r'
      · have := h2 hc
        simp only [List.head?] at this
        simp [hc]
        intro hdn
        exact this (by rw [hdn])
      · simp [hc]
    simp [pySplitlinesGo, h, hd]

theorem go_crlf (rest : List Char) (acc : List Char) :
    pySplitlinesGo ('\r' :: '\n' :: rest) acc = acc.reverse :: pySplitlinesGo rest [] := by
  simp [pySplitlinesGo, isLineBreak]

theorem go_nonbreak (c : Char) (rest acc : List Char) (h : isLineBreak c = false) :
    pySplitlinesGo (c :: rest) acc = pySplitlinesGo rest (c :: acc) := by
  cases rest with
  | nil => simp [pySplitlinesGo, h]
  | cons d rest2 => simp [pySplitlinesGo, h]

theorem go_append_nonbreak (l : List Char) :
    ∀ (r acc : List Char), (∀ c ∈ l, isLineBreak c = false) →
      pySplitlinesGo (l ++ r) acc = pySplitlinesGo r (l.reverse ++ acc) := by
  induction l with
  | nil => intro r acc _; rfl
  | cons c l ih =>
    intro r acc hl
    have hc : isLineBreak c = false := hl c (by simp)
    rw [List.cons_append, go_nonbreak c (l ++ r) acc hc,
      ih r (c :: acc) (fun x hx => hl x (by simp [hx]))]
    simp

theorem go_ne_nil (t : List Char) :
    ∀ acc : List Char, acc ≠ [] ∨ t ≠ [] → pySplitlinesGo t acc ≠ [] := by
  induction t with
  | nil =>
    intro acc h
    have ha : acc ≠ [] := h.elim id (fun h2 => absurd rfl h2)
    rw [go_nil]
    simp [List.isEmpty_iff, ha]
  | cons c rest ih =>
    intro acc _
    by_cases hc : isLineBreak c = true
    · by_cases hcr : c = '\r' ∧ rest.head? = some '\n'
      · obtain ⟨hc1, hc2⟩ := hcr
        cases rest with
        | nil => simp at hc2
        | cons d rest2 =>
          simp only [List.head?, Option.some.injEq] at hc2
          rw [hc1, hc2, go_crlf]
          simp
      · rw [go_break c rest acc hc (fun h1 h2 => hcr ⟨h1, h2⟩)]
        simp
    · rw [go_nonbreak c rest acc (by simpa using hc)]
      exact ih (c :: acc) (Or.inl (by simp))

theorem go_eq_nil_iff (t acc : List Char) :
    pySplitlinesGo t acc = [] ↔ t = [] ∧ acc = [] := by
  constructor
  · intro h
    by_cases ht : t = []
    · refine ⟨ht, ?_⟩
      by_cases ha : acc = []
      · exact ha
      · exact absurd h (go_ne_nil t acc (Or.inl ha))
    · exact absurd h (go_ne_nil t acc (Or.inr ht))
  · rintro ⟨ht, ha⟩
    subst ht; subst ha; rfl

/-! ### Split lines contain no line-break characters -/

theorem go_breakfree (t : List Char) :
    ∀ acc, (∀ c ∈ acc, isLineBreak c = false) →
      ∀ l ∈ pySplitlinesGo t acc, ∀ c ∈ l, isLineBreak c = false := by
  induction t using listLenInd with
  | H t ih =>
    cases t with
    | nil =>
      intro acc hacc l hl c hc
      rw [go_nil] at hl
      by_cases ha : acc.isEmpty
      · simp [ha] at hl
      · simp [ha] at hl
        subst hl
        exact hacc c (by simpa using hc)
    | cons c0 rest =>
      intro acc hacc l hl c hc
      by_cases hbr : isLineBreak c0 = true
      · by_cases hcr : c0 = '\r' ∧ rest.head? = some '\n'
        · obtain ⟨hc1, hc2⟩ := hcr
          cases rest with
          | nil => simp at hc2
          | cons d rest2 =>
            simp only [List.head?, Option.some.injEq] at hc2
            rw [hc1, hc2, go_crlf] at hl
            rcases List.mem_cons.mp hl with h1 | h1
            · subst h1
              exact hacc c (by simpa using hc)
            · exact ih rest2 (by simp; omega) [] (by simp) l h1 c hc
        · rw [go_break c0 rest acc hbr (fun h1 h2 => hcr ⟨h1, h2⟩)] at hl
          rcases List.mem_cons.mp hl with h1 | h1
          · subst h1
            exact hacc c (by simpa using hc)
          · exact ih rest (by simp) [] (by simp) l h1 c hc
      · rw [go_nonbreak c0 rest acc (by simpa using hbr)] at hl
        refine ih rest (by simp) (c0 :: acc) ?_ l hl c hc
        intro x hx
        rcases List.mem_cons.mp hx with h1 | h1
        · subst h1; simpa using hbr
        · exact hacc x h1

theorem splitlines_breakfree (t : List Char) :
    ∀ l ∈ pySplitlines t, ∀ c ∈ l, isLineBreak c = false :=
  go_breakfree t [] (by simp)

/-! ### Helpers for `joinNL` and `pyEndsWithNL` -/

theorem joinNL_cons (l : List Char) (rest : List (List Char)) (h : rest ≠ []) :
    joinNL (l :: rest) = l ++ '\n' :: joinNL rest := by
  cases rest with
  | nil => exact absurd rfl h
  | cons l2 rest2 => rfl

theorem endsNL_nil : pyEndsWithNL [] = false := rfl

theorem endsNL_cons (c : Char) (t : List Char) (h : t ≠ []) :
    pyEndsWithNL (c :: t) = pyEndsWithNL t := by
  unfold pyEndsWithNL
  rw [gl_cons c t h]

theorem endsNL_single (c : Char) : pyEndsWithNL [c] = (c == '\n') := by
  unfold pyEndsWithNL
  simp [List.getLast?]

theorem endsNL_concat_nl (l : List Char) : pyEndsWithNL (l ++ ['\n']) = true := by
  unfold pyEndsWithNL
  rw [List.getLast?_concat]
  simp

/-! ### Joining the split lines reconstructs newline-only text -/

theorem go_reconstruct (t : List Char) :
    ∀ acc, (∀ c ∈ t, isLineBreak c = true → c = '\n') →
      joinNL (pySplitlinesGo t acc) ++ (if pyEndsWithNL t then ['\n'] else []) =
        acc.reverse ++ t := by
  induction t with
  | nil =>
    intro acc _
    rw [go_nil, endsNL_nil]
    by_cases ha : acc.isEmpty
    · have ha2 : acc = [] := by simpa [List.isEmpty_iff] using ha
      subst ha2
      simp [joinNL]
    · simp [ha, joinNL]
  | cons c rest ih =>
    intro acc hnl
    by_cases hbr : isLineBreak c = true
    · have hcn : c = '\n' := hnl c (by simp) hbr
      subst hcn
      rw [go_break '\n' rest acc hbr (by intro h; exact absurd h (by decide))]
      cases rest with
      | nil =>
        rw [go_nil]
        simp [joinNL, endsNL_single]
      | cons d rest2 =>
        have hne : pySplitlinesGo (d :: rest2) [] ≠ [] :=
          go_ne_nil (d :: rest2) [] (Or.inr (by simp))
        rw [joinNL_cons _ _ hne, endsNL_cons '\n' (d :: rest2) (by simp)]
        have ihr := ih [] (fun x hx hb => hnl x (by simp [hx]) hb)
        simp only [List.reverse_nil, List.nil_append] at ihr
        rw [List.append_assoc, List.cons_append, ihr]
    · rw [go_nonbreak c rest acc (by simpa using hbr)]
      cases rest with
      | nil =>
        rw [go_nil]
        have : (c :: acc).isEmpty = false := by simp
        rw [this]
        have hcn : (c == '\n') = false := by
          by_cases h : c = '\n'
          · subst h; simp [isLineBreak] at hbr
          · simp [h]
        simp [joinNL, endsNL_single, hcn]
      | cons d rest2 =>
        have ihr := ih (c :: acc) (fun x hx hb => hnl x (by simp [hx]) hb)
        rw [endsNL_cons c (d :: rest2) (by simp)]
        rw [ihr]
        simp

/-- Splitting the input and rejoining with `"\n"` (restoring a trailing
newline) is the identity on texts whose only line-break character is
`'\n'`. -/
theorem splitlines_reconstruct (t : List Char)
    (hnl : ∀ c ∈ t, isLineBreak c = true → c = '\n') :
    joinNL (pySplitlines t) ++ (if pyEndsWithNL t then ['\n'] else []) = t := by
  have := go_reconstruct t [] hnl
  simpa using this

/-! ### Lines of a rejoined text are among the original lines -/

theorem splitlines_join_mem (extra : List Char)
    (hextra : extra = [] ∨ extra = ['\n']) :
    ∀ outs : List (List Char), (∀ l ∈ outs, ∀ c ∈ l, isLineBreak c = false) →
      ∀ l2 ∈ pySplitlines (joinNL outs ++ extra), l2 ∈ outs ∨ l2 = [] := by
  intro outs
  induction outs with
  | nil =>
    intro _ l2 h2
    rcases hextra with he | he <;> subst he
    · simp [pySplitlines, pySplitlinesGo, joinNL] at h2
    · simp only [joinNL, List.nil_append] at h2
      right
      have : pySplitlines ['\n'] = [[]] := by decide
      rw [this] at h2
      simpa using h2
  | cons l rest ih =>
    intro hbf l2 h2
    cases rest with
    | nil =>
      simp only [joinNL] at h2
      unfold pySplitlines at h2
      rw [go_append_nonbreak l extra [] (hbf l (by simp))] at h2
      rcases hextra with he | he <;> subst he
      · rw [go_nil] at h2
        by_cases hl : l = []
        · subst hl
          simp at h2
        · simp [hl] at h2
          subst h2
          left; simp
      · have : pySplitlinesGo ['\n'] (l.reverse ++ []) = [(l.reverse ++ []).reverse] := by
          simp [pySplitlinesGo, isLineBreak]
        rw [this] at h2
        simp at h2
        subst h2
        left; simp
    | cons lb rest2 =>
      rw [joinNL_cons l (lb :: rest2) (by simp)] at h2
      unfold pySplitlines at h2
      rw [List.append_assoc, List.cons_append] at h2
      rw [go_append_nonbreak l _ [] (hbf l (by simp))] at h2
      rw [go_break '\n' _ _ (by decide) (by intro h; exact absurd h (by decide))] at h2
      rcases List.mem_cons.mp h2 with h1 | h1
      · subst h1
        left; simp
      · have := ih (fun x hx => hbf x (by simp [hx])) l2 h1
        rcases this with h3 | h3
        · left; simp [h3]
        · right; exact h3

/-! ### The last split line of newline-only text not ending in a newline -/

theorem splitlines_last_ne_nil (t : List Char) :
    ∀ acc, (∀ c ∈ t, isLineBreak c = true → c = '\n') → pyEndsWithNL t = false →
      ∀ x, (pySplitlinesGo t acc).getLast? = some x → x ≠ [] := by
  induction t with
  | nil =>
    intro acc _ _ x hx
    rw [go_nil] at hx
    by_cases ha : acc.isEmpty
    · simp [ha] at hx
    · simp [ha] at hx
      subst hx
      simp [List.isEmpty_iff] at ha
      simpa using ha
  | cons c rest ih =>
    intro acc hnl hend x hx
    by_cases hbr : isLineBreak c = true
    · have hcn : c = '\n' := hnl c (by simp) hbr
      subst hcn
      cases rest with
      | nil => rw [endsNL_single] at hend; simp at hend
      | cons d rest2 =>
        rw [go_break '\n' (d :: rest2) acc hbr (by intro h; exact absurd h (by decide))] at hx
        have hne : pySplitlinesGo (d :: rest2) [] ≠ [] :=
          go_ne_nil (d :: rest2) [] (Or.inr (by simp))
        rw [gl_cons _ _ hne] at hx
        rw [endsNL_cons '\n' (d :: rest2) (by simp)] at hend
        exact ih [] (fun y hy hb => hnl y (by simp [hy]) hb) hend x hx
    · rw [go_nonbreak c rest acc (by simpa using hbr)] at hx
      cases rest with
      | nil =>
        rw [go_nil] at hx
        have : (c :: acc).isEmpty = false := by simp
        rw [this] at hx
        simp at hx
        subst hx
        simp
      | cons d rest2 =>
        rw [endsNL_cons c (d :: rest2) (by simp)] at hend
        exact ih (c :: acc) (fun y hy hb => hnl y (by simp [hy]) hb) hend x hx

/-! ### Equation lemmas for the scanning loop -/

theorem consumeFollowing_len (ls : List (List Char)) :
    (consumeFollowing ls).2.length ≤ ls.length := by
  induction ls with
  | nil => simp [consumeFollowing]
  | cons l rest ih =>
    cases h : followingCommentMatch l with
    | none => simp [consumeFollowing, h]
    | some ind =>
      simp only [consumeFollowing, h]
      exact Nat.le_succ_of_le ih

theorem transformLinesF_fuel_irrel :
    ∀ (f1 f2 : Nat) (ls : List (List Char)), ls.length ≤ f1 → ls.length ≤ f2 →
      transformLinesF f1 ls = transformLinesF f2 ls := by
  intro f1
  induction f1 with
  | zero =>
    intro f2 ls h1 _
    have hls : ls = [] := by
      cases ls with
      | nil => rfl
      | cons a b => simp at h1
    subst hls
    cases f2 <;> rfl
  | succ f1 ih =>
    intro f2 ls h1 h2
    cases ls with
    | nil => cases f2 <;> rfl
    | cons l rest =>
      cases f2 with
      | zero => simp at h2
      | succ f2 =>
        have h1r : rest.length ≤ f1 := by simp at h1; omega
        have h2r : rest.length ≤ f2 := by simp at h2; omega
        cases hm : safetyStartMatch l with
        | none =>
          simp only [transformLinesF, hm]
          rw [ih f2 rest h1r h2r]
        | some ind =>
          have hcl : (consumeFollowing rest).2.length ≤ rest.length :=
            consumeFollowing_len rest
          simp only [transformLinesF, hm]
          rw [ih f2 (consumeFollowing rest).2 (by omega) (by omega)]

theorem transformLines_nil : transformLines [] = ([], false) := rfl

theorem transformLines_cons_none (l : List Char) (rest : List (List Char))
    (h : safetyStartMatch l = none) :
    transformLines (l :: rest) =
      (l :: (transformLines rest).1, (transformLines rest).2) := by
  unfold transformLines
  rw [show (l :: rest).length = rest.length + 1 from by simp]
  simp only [transformLinesF, h]

theorem transformLines_cons_some (l ind : List Char) (rest : List (List Char))
    (h : safetyStartMatch l = some ind) :
    transformLines (l :: rest) =
      (convertLine ind l ::
        ((consumeFollowing rest).1 ++ (transformLines (consumeFollowing rest).2).1),
       true) := by
  unfold transformLines
  rw [show (l :: rest).length = rest.length + 1 from by simp]
  simp only [transformLinesF, h]
  rw [transformLinesF_fuel_irrel rest.length (consumeFollowing rest).2.length
    (consumeFollowing rest).2 (consumeFollowing_len rest) (Nat.le_refl _)]

/-! ### Decomposition of matched lines -/

theorem ssm_indent (line ind : List Char) (h : safetyStartMatch line = some ind) :
    ind = line.takeWhile isPySpace := by
  unfold safetyStartMatch at h
  split at h
  · simp at h
  · simp at h
  · split at h
    · exact (Option.some.inj h).symm
    · simp at h
  · simp at h

theorem fcm_indent (line ind : List Char) (h : followingCommentMatch line = some ind) :
    ind = line.takeWhile isPySpace := by
  unfold followingCommentMatch at h
  split at h
  · simp at h
  · simp at h
  · split at h
    · exact (Option.some.inj h).symm
    · simp at h
  · simp at h

theorem ssm_ind_space (line ind : List Char) (h : safetyStartMatch line = some ind) :
    ∀ c ∈ ind, isPySpace c = true := by
  intro c hc
  rw [ssm_indent line ind h] at hc
  exact List.mem_takeWhile_imp hc

theorem fcm_ind_space (line ind : List Char) (h : followingCommentMatch line = some ind) :
    ∀ c ∈ ind, isPySpace c = true := by
  intro c hc
  rw [fcm_indent line ind h] at hc
  exact List.mem_takeWhile_imp hc

theorem dropWhile_shape_decomp (line ind rest2 : List Char)
    (hind : ind = line.takeWhile isPySpace)
    (heq : line.dropWhile isPySpace = '/' :: '/' :: rest2) :
    line = ind ++ '/' :: '/' :: line.drop (ind.length + 2) := by
  have hsplit : ind ++ '/' :: '/' :: rest2 = line := by
    rw [hind, ← heq]
    exact List.takeWhile_append_dropWhile isPySpace line
  have hdrop : line.drop (ind.length + 2) = rest2 := by
    rw [← hsplit,
      show ind ++ '/' :: '/' :: rest2 = (ind ++ ['/', '/']) ++ rest2 from by simp,
      show ind.length + 2 = (ind ++ ['/', '/']).length from by simp,
      List.drop_left]
  rw [hdrop, hsplit]

theorem ssm_decomp (line ind : List Char) (h : safetyStartMatch line = some ind) :
    line = ind ++ '/' :: '/' :: line.drop (ind.length + 2) := by
  have hind := ssm_indent line ind h
  unfold safetyStartMatch at h
  split at h
  · simp at h
  · simp at h
  · rename_i a rest2 hn1 hn2 heq
    exact dropWhile_shape_decomp line ind rest2 hind heq
  · simp at h

theorem fcm_decomp (line ind : List Char) (h : followingCommentMatch line = some ind) :
    line = ind ++ '/' :: '/' :: line.drop (ind.length + 2) := by
  have hind := fcm_indent line ind h
  unfold followingCommentMatch at h
  split at h
  · simp at h
  · simp at h
  · rename_i a rest2 hn1 hn2 heq
    exact dropWhile_shape_decomp line ind rest2 hind heq
  · simp at h

/-- A converted line starts with `indent ++ "///"`, so it can never match
the trigger pattern again. -/
theorem ssm_convertLine_none (ind line : List Char)
    (hind : ∀ c ∈ ind, isPySpace c = true) :
    safetyStartMatch (convertLine ind line) = none := by
  have hspan := span_append isPySpace ind '/'
    ('/' :: '/' :: line.drop (ind.length + 2)) hind (by decide)
  unfold convertLine safetyStartMatch
  rw [show ind ++ ['/', '/', '/'] ++ line.drop (ind.length + 2) =
      ind ++ '/' :: '/' :: '/' :: line.drop (ind.length + 2) from by simp]
  rw [hspan.2]
  rfl

/-- A converted line can never match the continuation pattern either. -/
theorem fcm_convertLine_none (ind line : List Char)
    (hind : ∀ c ∈ ind, isPySpace c = true) :
    followingCommentMatch (convertLine ind line) = none := by
  have hspan := span_append isPySpace ind '/'
    ('/' :: '/' :: line.drop (ind.length + 2)) hind (by decide)
  unfold convertLine followingCommentMatch
  rw [show ind ++ ['/', '/', '/'] ++ line.drop (ind.length + 2) =
      ind ++ '/' :: '/' :: '/' :: line.drop (ind.length + 2) from by simp]
  rw [hspan.2]
  rfl

/-! ### Shape of the continuation loop -/

theorem consumeFollowing_shape (ls : List (List Char)) :
    ∃ k, consumeFollowing ls = ((ls.take k).map contConvert, ls.drop k) ∧
      ∀ x ∈ ls.take k, (followingCommentMatch x).isSome = true := by
  induction ls with
  | nil => exact ⟨0, rfl, by simp⟩
  | cons l rest ih =>
    cases hm : followingCommentMatch l with
    | none => exact ⟨0, by simp [consumeFollowing, hm], by simp⟩
    | some ind =>
      obtain ⟨k, hsh, hall⟩ := ih
      refine ⟨k + 1, ?_, ?_⟩
      · simp only [consumeFollowing, hm, hsh, List.take_succ_cons, List.drop_succ_cons,
          List.map_cons]
        rw [show contConvert l = convertLine ind l from by simp [contConvert, hm]]
      · intro x hx
        rw [List.take_succ_cons] at hx
        rcases List.mem_cons.mp hx with h1 | h1
        · subst h1; simp [hm]
        · exact hall x h1

/-! ### No output line re-matches the trigger pattern -/

theorem transformLines_no_trigger (ls : List (List Char)) :
    ∀ l ∈ (transformLines ls).1, safetyStartMatch l = none := by
  induction ls using listLenInd with
  | H ls ih =>
    cases ls with
    | nil =>
      intro l hl
      rw [transformLines_nil] at hl
      simp at hl
    | cons l0 rest =>
      intro l hl
      cases hm : safetyStartMatch l0 with
      | none =>
        rw [transformLines_cons_none l0 rest hm] at hl
        rcases List.mem_cons.mp hl with h1 | h1
        · subst h1; exact hm
        · exact ih rest (by simp) l h1
      | some ind =>
        rw [transformLines_cons_some l0 ind rest hm] at hl
        rcases List.mem_cons.mp hl with h1 | h1
        · subst h1
          exact ssm_convertLine_none ind l0 (ssm_ind_space l0 ind hm)
        · rcases List.mem_append.mp h1 with h2 | h2
          · obtain ⟨k, hsh, hall⟩ := consumeFollowing_shape rest
            rw [hsh] at h2
            simp only [List.mem_map] at h2
            obtain ⟨y, hy, hcy⟩ := h2
            have hys := hall y hy
            rw [Option.isSome_iff_exists] at hys
            obtain ⟨ind2, hind2⟩ := hys
            rw [← hcy, show contConvert y = convertLine ind2 y from by
              simp [contConvert, hind2]]
            exact ssm_convertLine_none ind2 y (fcm_ind_space y ind2 hind2)
          · have hlen : (consumeFollowing rest).2.length < (l0 :: rest).length := by
              have := consumeFollowing_len rest
              simp only [List.length_cons]
              omega
            exact ih (consumeFollowing rest).2 hlen l h2

/-! ### Scanning text with no trigger line is the identity -/

theorem transformLines_id_of_no_trigger (ls : List (List Char))
    (h : ∀ l ∈ ls, safetyStartMatch l = none) :
    transformLines ls = (ls, false) := by
  induction ls with
  | nil => rfl
  | cons l rest ih =>
    rw [transformLines_cons_none l rest (h l (by simp)),
      ih (fun x hx => h x (by simp [hx]))]

theorem transformLines_fst_of_not_changed (ls : List (List Char)) :
    (transformLines ls).2 = false → (transformLines ls).1 = ls := by
  induction ls using listLenInd with
  | H ls ih =>
    cases ls with
    | nil => intro _; rfl
    | cons l rest =>
      intro h
      cases hm : safetyStartMatch l with
      | none =>
        rw [transformLines_cons_none l rest hm] at h ⊢
        simp only at h ⊢
        rw [ih rest (by simp) h]
      | some ind =>
        rw [transformLines_cons_some l ind rest hm] at h
        simp at h

/-! ### The scan preserves the number of lines -/

theorem transformLines_length (ls : List (List Char)) :
    (transformLines ls).1.length = ls.length := by
  induction ls using listLenInd with
  | H ls ih =>
    cases ls with
    | nil => rfl
    | cons l rest =>
      cases hm : safetyStartMatch l with
      | none =>
        rw [transformLines_cons_none l rest hm]
        simp [ih rest (by simp)]
      | some ind =>
        rw [transformLines_cons_some l ind rest hm]
        obtain ⟨k, hsh, _⟩ := consumeFollowing_shape rest
        rw [hsh]
        have hrec := ih (rest.drop k) (by
          simp only [List.length_cons, List.length_drop]
          omega)
        simp only [List.length_cons, List.length_append, List.length_map,
          List.length_take, List.length_drop, hrec]
        omega

/-! ### More getLast? helpers -/

theorem gl_mem {α : Type} (l : List α) (a : α) (h : l.getLast? = some a) : a ∈ l := by
  have h2 : a ∈ l.getLast? := by rw [Option.mem_def]; exact h
  obtain ⟨hne, he⟩ := List.mem_getLast?_eq_getLast h2
  rw [he]
  exact List.getLast_mem hne

theorem gl_drop {α : Type} (k : Nat) (l : List α) (h : l.drop k ≠ []) :
    (l.drop k).getLast? = l.getLast? := by
  conv_rhs => rw [← List.take_append_drop k l]
  rw [gl_append (l.take k) (l.drop k) h]

/-- Unfolding of `transform_content`. -/
theorem transform_content_eq (text : List Char) :
    transform_content text =
      (if pyEndsWithNL text then
          joinNL (transformLines (pySplitlines text)).1 ++ ['\n']
        else joinNL (transformLines (pySplitlines text)).1,
       (transformLines (pySplitlines text)).2) := rfl

/-! ### Output lines contain no line-break characters -/

theorem convertLine_breakfree (ind line : List Char)
    (hdec : line = ind ++ '/' :: '/' :: line.drop (ind.length + 2))
    (hbf : ∀ c ∈ line, isLineBreak c = false) :
    ∀ c ∈ convertLine ind line, isLineBreak c = false := by
  intro c hc
  unfold convertLine at hc
  rcases List.mem_append.mp hc with h1 | h1
  · rcases List.mem_append.mp h1 with h2 | h2
    · exact hbf c (by rw [hdec]; simp [h2])
    · have h3 : c = '/' := by simpa using h2
      subst h3; decide
  · exact hbf c (by rw [hdec]; simp [h1])

theorem transformLines_breakfree (ls : List (List Char)) :
    (∀ l ∈ ls, ∀ c ∈ l, isLineBreak c = false) →
    ∀ l ∈ (transformLines ls).1, ∀ c ∈ l, isLineBreak c = false := by
  induction ls using listLenInd with
  | H ls ih =>
    intro hls l hl c hc
    cases ls with
    | nil =>
      rw [transformLines_nil] at hl
      simp at hl
    | cons l0 rest =>
      cases hm : safetyStartMatch l0 with
      | none =>
        rw [transformLines_cons_none l0 rest hm] at hl
        rcases List.mem_cons.mp hl with h1 | h1
        · subst h1; exact hls l (by simp) c hc
        · exact ih rest (by simp) (fun x hx => hls x (by simp [hx])) l h1 c hc
      | some ind =>
        rw [transformLines_cons_some l0 ind rest hm] at hl
        rcases List.mem_cons.mp hl with h1 | h1
        · subst h1
          exact convertLine_breakfree ind l0 (ssm_decomp l0 ind hm)
            (hls l0 (by simp)) c hc
        · rcases List.mem_append.mp h1 with h2 | h2
          · obtain ⟨k, hsh, hall⟩ := consumeFollowing_shape rest
            rw [hsh] at h2
            simp only [List.mem_map] at h2
            obtain ⟨y, hy, hcy⟩ := h2
            have hys := hall y hy
            rw [Option.isSome_iff_exists] at hys
            obtain ⟨ind2, hind2⟩ := hys
            have hymem : y ∈ rest := List.mem_of_mem_take hy
            rw [← hcy,
              show contConvert y = convertLine ind2 y from by simp [contConvert, hind2]] at hc
            exact convertLine_breakfree ind2 y (fcm_decomp y ind2 hind2)
              (hls y (by simp [hymem])) c hc
          · have hlen : (consumeFollowing rest).2.length < (l0 :: rest).length := by
              have := consumeFollowing_len rest
              simp only [List.length_cons]
              omega
            obtain ⟨k, hsh, _⟩ := consumeFollowing_shape rest
            refine ih (consumeFollowing rest).2 hlen ?_ l h2 c hc
            intro x hx
            rw [hsh] at hx
            exact hls x (by simp [List.mem_of_mem_drop hx])

/-! ### Members of the joined output -/

theorem joinNL_mem (outs : List (List Char)) (c : Char) (hc : c ∈ joinNL outs) :
    c = '\n' ∨ ∃ l ∈ outs, c ∈ l := by
  induction outs with
  | nil => simp [joinNL] at hc
  | cons l rest ih =>
    cases rest with
    | nil =>
      right
      exact ⟨l, by simp, by simpa [joinNL] using hc⟩
    | cons l2 r2 =>
      rw [joinNL_cons l (l2 :: r2) (by simp)] at hc
      rcases List.mem_append.mp hc with h1 | h1
      · right; exact ⟨l, by simp, h1⟩
      · rcases List.mem_cons.mp h1 with h2 | h2
        · left; exact h2
        · rcases ih h2 with h3 | ⟨l3, hl3, hcl3⟩
          · left; exact h3
          · right; exact ⟨l3, by simp [hl3], hcl3⟩

/-- Every line-break character in the output text is a newline. -/
theorem transform_result_breaks (text : List Char) :
    ∀ c ∈ (transform_content text).1, isLineBreak c = true → c = '\n' := by
  intro c hc hbr
  have hout : ∀ l ∈ (transformLines (pySplitlines text)).1, ∀ x ∈ l, isLineBreak x = false :=
    transformLines_breakfree (pySplitlines text) (splitlines_breakfree text)
  rw [transform_content_eq] at hc
  simp only at hc
  by_cases he : pyEndsWithNL text = true
  · rw [if_pos he] at hc
    rcases List.mem_append.mp hc with h1 | h1
    · rcases joinNL_mem _ c h1 with h2 | ⟨l, hl, hcl⟩
      · exact h2
      · exact absurd hbr (by simp [hout l hl c hcl])
    · simpa using h1
  · rw [if_neg he] at hc
    rcases joinNL_mem _ c hc with h2 | ⟨l, hl, hcl⟩
    · exact h2
    · exact absurd hbr (by simp [hout l hl c hcl])

/-! ### The scan preserves nonemptiness of the final line -/

theorem transformLines_last_ne_nil (ls : List (List Char)) :
    (∀ x, ls.getLast? = some x → x ≠ []) →
    ∀ y, (transformLines ls).1.getLast? = some y → y ≠ [] := by
  induction ls using listLenInd with
  | H ls ih =>
    intro hlast y hy
    cases ls with
    | nil =>
      rw [transformLines_nil] at hy
      simp at hy
    | cons l0 rest =>
      cases hm : safetyStartMatch l0 with
      | none =>
        rw [transformLines_cons_none l0 rest hm] at hy
        by_cases hr : rest = []
        · subst hr
          rw [transformLines_nil] at hy
          simp only [List.getLast?, Option.some.injEq] at hy
          subst hy
          exact hlast l0 (by simp)
        · have hne : (transformLines rest).1 ≠ [] := by
            intro h0
            have hlen := transformLines_length rest
            rw [h0] at hlen
            exact hr (List.length_eq_zero.mp hlen.symm)
          rw [gl_cons _ _ hne] at hy
          refine ih rest (by simp) ?_ y hy
          intro x hx
          refine hlast x ?_
          rw [gl_cons l0 rest hr]
          exact hx
      | some ind =>
        rw [transformLines_cons_some l0 ind rest hm] at hy
        obtain ⟨k, hsh, hall⟩ := consumeFollowing_shape rest
        have h2eq : (consumeFollowing rest).2 = rest.drop k := by rw [hsh]
        have h1eq : (consumeFollowing rest).1 = (rest.take k).map contConvert := by rw [hsh]
        by_cases hrem : (consumeFollowing rest).2 = []
        · have hout1 : (transformLines (consumeFollowing rest).2).1 = [] := by
            rw [hrem, transformLines_nil]
          rw [hout1, List.append_nil] at hy
          by_cases hconv : (consumeFollowing rest).1 = []
          · rw [hconv] at hy
            simp only [List.getLast?, Option.some.injEq] at hy
            subst hy
            simp [convertLine]
          · rw [gl_cons _ _ hconv, h1eq, List.getLast?_map] at hy
            cases hgl : (rest.take k).getLast? with
            | none => rw [hgl] at hy; simp at hy
            | some z =>
              rw [hgl] at hy
              simp only [Option.map_some'] at hy
              have hz : z ∈ rest.take k := gl_mem _ z hgl
              have hzs := hall z hz
              rw [Option.isSome_iff_exists] at hzs
              obtain ⟨ind2, hind2⟩ := hzs
              have : y = convertLine ind2 z := by
                rw [← Option.some.inj hy,
                  show contConvert z = convertLine ind2 z from by simp [contConvert, hind2]]
              rw [this]
              simp [convertLine]
        · have hne : (transformLines (consumeFollowing rest).2).1 ≠ [] := by
            intro h0
            have hlen := transformLines_length (consumeFollowing rest).2
            rw [h0] at hlen
            exact hrem (List.length_eq_zero.mp hlen.symm)
          have happ : (consumeFollowing rest).1 ++
              (transformLines (consumeFollowing rest).2).1 ≠ [] := by
            intro h0
            exact hne (List.append_eq_nil.mp h0).2
          rw [gl_cons _ _ happ, gl_append _ _ hne] at hy
          have hrest_ne : rest ≠ [] := by
            intro h0
            subst h0
            simp [consumeFollowing] at hrem
          refine ih (consumeFollowing rest).2
            (by have := consumeFollowing_len rest; simp only [List.length_cons]; omega)
            ?_ y hy
          intro x hx
          rw [h2eq] at hx
          have hdrop_ne : rest.drop k ≠ [] := by rw [← h2eq]; exact hrem
          refine hlast x ?_
          rw [gl_cons l0 rest hrest_ne, ← gl_drop k rest hdrop_ne]
          exact hx

/-! ### Last character of the joined output -/

theorem joinNL_last (outs : List (List Char)) (z : List Char)
    (hz : outs.getLast? = some z) (hzne : z ≠ []) :
    (joinNL outs).getLast? = z.getLast? := by
  induction outs with
  | nil => simp at hz
  | cons l rest ih =>
    cases rest with
    | nil =>
      simp only [List.getLast?, Option.some.injEq] at hz
      subst hz
      rfl
    | cons l2 r2 =>
      rw [List.getLast?_cons_cons] at hz
      have ihz := ih hz
      have hjoin_ne : joinNL (l2 :: r2) ≠ [] := by
        intro h0
        rw [h0] at ihz
        simp only [List.getLast?] at ihz
        exact hzne (List.getLast?_eq_none_iff.mp ihz.symm)
      rw [joinNL_cons l (l2 :: r2) (by simp),
        gl_append l ('\n' :: joinNL (l2 :: r2)) (by simp),
        gl_cons '\n' (joinNL (l2 :: r2)) hjoin_ne]
      exact ihz

/-! ### Lines that match must start with a plain comment marker -/

theorem ssm_shape (line ind : List Char) (h : safetyStartMatch line = some ind) :
    ∃ rest2, line.dropWhile isPySpace = '/' :: '/' :: rest2 := by
  unfold safetyStartMatch at h
  split at h
  · simp at h
  · simp at h
  · rename_i a rest2 hn1 hn2 heq
    exact ⟨rest2, heq⟩
  · simp at h

theorem fcm_shape (line ind : List Char) (h : followingCommentMatch line = some ind) :
    ∃ rest2, line.dropWhile isPySpace = '/' :: '/' :: rest2 := by
  unfold followingCommentMatch at h
  split at h
  · simp at h
  · simp at h
  · rename_i a rest2 hn1 hn2 heq
    exact ⟨rest2, heq⟩
  · simp at h

/-- A line already in doc-comment form matches neither pattern. -/
theorem doc_no_match (line : List Char) (h : isDocComment line = true) :
    safetyStartMatch line = none ∧ followingCommentMatch line = none := by
  unfold isDocComment at h
  split at h
  · rename_i tl heq
    constructor
    · unfold safetyStartMatch; rw [heq]; rfl
    · unfold followingCommentMatch; rw [heq]; rfl
  · rename_i tl heq
    constructor
    · unfold safetyStartMatch; rw [heq]; rfl
    · unfold followingCommentMatch; rw [heq]; rfl
  · simp at h

/-- A blank (all-whitespace) line matches neither pattern. -/
theorem blank_no_match (line : List Char) (h : line.all isPySpace = true) :
    safetyStartMatch line = none ∧ followingCommentMatch line = none := by
  have hd : line.dropWhile isPySpace = [] := by
    rw [List.dropWhile_eq_nil_iff]
    intro x hx
    exact List.all_eq_true.mp h x hx
  constructor
  · unfold safetyStartMatch; rw [hd]
  · unfold followingCommentMatch; rw [hd]

/-- A line that does not start with `//` (after optional whitespace)
matches neither pattern. -/
theorem noncomment_no_match (line : List Char) (h : isCommentStart line = false) :
    safetyStartMatch line = none ∧ followingCommentMatch line = none := by
  constructor
  · cases hs : safetyStartMatch line with
    | none => rfl
    | some ind =>
      obtain ⟨rest2, heq⟩ := ssm_shape line ind hs
      unfold isCommentStart at h
      rw [heq] at h
      simp at h
  · cases hs : followingCommentMatch line with
    | none => rfl
    | some ind =>
      obtain ⟨rest2, heq⟩ := fcm_shape line ind hs
      unfold isCommentStart at h
      rw [heq] at h
      simp at h

/-! ### The continuation loop stops exactly at the first non-matching line -/

theorem consumeFollowing_cons_none (l : List Char) (rest : List (List Char))
    (h : followingCommentMatch l = none) :
    consumeFollowing (l :: rest) = ([], l :: rest) := by
  simp [consumeFollowing, h]

theorem consumeFollowing_stops (pre : List (List Char)) :
    ∀ (l2 : List Char) (post : List (List Char)),
      (∀ x ∈ pre, (followingCommentMatch x).isSome = true) →
      followingCommentMatch l2 = none →
      consumeFollowing (pre ++ l2 :: post) = (pre.map contConvert, l2 :: post) := by
  induction pre with
  | nil =>
    intro l2 post _ h2
    simp [consumeFollowing, h2]
  | cons x pre ih =>
    intro l2 post h1 h2
    have hx := h1 x (by simp)
    rw [Option.isSome_iff_exists] at hx
    obtain ⟨ind, hind⟩ := hx
    have hrec := ih l2 post (fun z hz => h1 z (by simp [hz])) h2
    have hstep : consumeFollowing (x :: pre ++ l2 :: post) =
        (convertLine ind x :: (consumeFollowing (pre ++ l2 :: post)).1,
         (consumeFollowing (pre ++ l2 :: post)).2) := by
      rw [List.cons_append]
      simp only [consumeFollowing, hind]
    rw [hstep, hrec]
    simp [contConvert, hind]

/-! ### Applying the transformation to an already transformed text -/

/-- `transform_content` acts as the identity (with `changed = false`) on a
text none of whose lines matches the trigger pattern, provided all its
line breaks are newlines. -/
theorem transform_content_id (res : List Char)
    (hall : ∀ l ∈ pySplitlines res, safetyStartMatch l = none)
    (hnl : ∀ c ∈ res, isLineBreak c = true → c = '\n') :
    transform_content res = (res, false) := by
  rw [transform_content_eq, transformLines_id_of_no_trigger _ hall]
  have hrec := splitlines_reconstruct res hnl
  by_cases he : pyEndsWithNL res = true
  · rw [if_pos he] at hrec ⊢
    rw [hrec]
  · rw [if_neg he] at hrec ⊢
    rw [List.append_nil] at hrec
    rw [hrec]

/-! ### Characterisation of the trigger pattern -/

theorem dotStarEnd_of_breakfree (t : List Char) (h : ∀ c ∈ t, isLineBreak c = false) :
    dotStarEnd t = true := by
  unfold dotStarEnd
  rw [Bool.not_eq_true']
  by_contra h2
  rw [Bool.not_eq_false] at h2
  have hmem : '\n' ∈ t.dropLast := by simpa using h2
  have := h '\n' (List.mem_of_mem_dropLast hmem)
  simp [isLineBreak] at this

/-- The third match arm of `SAFETY_START_RE`, isolated. -/
theorem ssm_arm3 (line rest2 : List Char)
    (hdw : line.dropWhile isPySpace = '/' :: '/' :: rest2)
    (h3 : ∀ tl, rest2 ≠ '/' :: tl) (h4 : ∀ tl, rest2 ≠ '!' :: tl) :
    safetyStartMatch line =
      (if safetyTag.isPrefixOf (rest2.dropWhile isPySpace) &&
          dotStarEnd ((rest2.dropWhile isPySpace).drop safetyTag.length)
        then some (line.takeWhile isPySpace) else none) := by
  unfold safetyStartMatch
  rw [hdw]
  split
  · rename_i tl heq
    simp only [List.cons.injEq, true_and] at heq
    exact absurd heq (h3 tl)
  · rename_i tl heq
    simp only [List.cons.injEq, true_and] at heq
    exact absurd heq (h4 tl)
  · rename_i a r2 hn1 hn2 heq
    simp only [List.cons.injEq, true_and] at heq
    rw [heq]
  · rename_i hn1 hn2 hn3
    exact absurd rfl (hn3 rest2)

/-- Forward direction: a line accepted by `SAFETY_START_RE` decomposes as
indent, marker pair, a whitespace run, the literal tag, and a tail. -/
theorem ssm_chars_of_some (line ind : List Char)
    (h : safetyStartMatch line = some ind) :
    ∃ ws tail,
      line = line.takeWhile isPySpace ++ '/' :: '/' :: (ws ++ (safetyTag ++ tail)) ∧
      ∀ c ∈ ws, isPySpace c = true := by
  unfold safetyStartMatch at h
  split at h
  · simp at h
  · simp at h
  · rename_i a rest2 hn1 hn2 heq
    split at h
    · rename_i hcond
      rw [Bool.and_eq_true] at hcond
      obtain ⟨hpre, _⟩ := hcond
      refine ⟨rest2.takeWhile isPySpace,
        (rest2.dropWhile isPySpace).drop safetyTag.length, ?_, ?_⟩
      · have h2 : rest2 = rest2.takeWhile isPySpace ++
            (safetyTag ++ (rest2.dropWhile isPySpace).drop safetyTag.length) := by
          conv_lhs => rw [← List.takeWhile_append_dropWhile isPySpace rest2]
          rw [← append_drop_of_isPrefixOf safetyTag _ hpre]
        conv_lhs => rw [← List.takeWhile_append_dropWhile isPySpace line, heq, h2]
      · intro c hc
        exact List.mem_takeWhile_imp hc
    · simp at h
  · simp at h

/-- Backward direction: every line of that shape is accepted by
`SAFETY_START_RE`, provided it contains no line-break character. -/
theorem ssm_some_of_chars (line ws tail : List Char)
    (hbf : ∀ c ∈ line, isLineBreak c = false)
    (hws : ∀ c ∈ ws, isPySpace c = true)
    (hline : line = line.takeWhile isPySpace ++ '/' :: '/' :: (ws ++ (safetyTag ++ tail))) :
    safetyStartMatch line = some (line.takeWhile isPySpace) := by
  have hsp : ∀ c ∈ line.takeWhile isPySpace, isPySpace c = true :=
    fun c hc => List.mem_takeWhile_imp hc
  have hspan := span_append isPySpace (line.takeWhile isPySpace) '/'
    ('/' :: (ws ++ (safetyTag ++ tail))) hsp (by decide)
  have hdw : line.dropWhile isPySpace = '/' :: '/' :: (ws ++ (safetyTag ++ tail)) := by
    conv_lhs => rw [hline]
    exact hspan.2
  have hdw2 : (ws ++ (safetyTag ++ tail)).dropWhile isPySpace = safetyTag ++ tail := by
    have hsp2 := span_append isPySpace ws 'S' ('A' :: 'F' :: 'E' :: 'T' :: 'Y' :: ':' :: tail)
      hws (by decide)
    rw [show safetyTag ++ tail = 'S' :: ('A' :: 'F' :: 'E' :: 'T' :: 'Y' :: ':' :: tail) from rfl]
    exact hsp2.2
  have hhead : ∀ (x : Char) tl, ws ++ (safetyTag ++ tail) = x :: tl →
      isPySpace x = true ∨ x = 'S' := by
    intro x tl heq
    cases ws with
    | nil =>
      right
      rw [List.nil_append] at heq
      have : ('S' : Char) = x := by
        have h5 := congrArg List.head? heq
        simpa [safetyTag] using h5
      exact this.symm
    | cons c ws2 =>
      left
      have : c = x := by
        have h5 := congrArg List.head? heq
        simpa using h5
      rw [← this]
      exact hws c (by simp)
  rw [ssm_arm3 line (ws ++ (safetyTag ++ tail)) hdw
    (by
      intro tl heq
      rcases hhead '/' tl heq with h5 | h5
      · exact absurd h5 (by decide)
      · exact absurd h5 (by decide))
    (by
      intro tl heq
      rcases hhead '!' tl heq with h5 | h5
      · exact absurd h5 (by decide)
      · exact absurd h5 (by decide))]
  rw [hdw2, isPrefixOf_app_self safetyTag tail,
    show (safetyTag ++ tail).drop safetyTag.length = tail from List.drop_left safetyTag tail,
    dotStarEnd_of_breakfree tail (fun c hc => hbf c (by rw [hline]; simp [hc]))]
  simp

/-! ### Trailing-newline behaviour of the output -/

theorem transform_endsNL (text : List Char)
    (hnl : ∀ c ∈ text, isLineBreak c = true → c = '\n') :
    pyEndsWithNL (transform_content text).1 = pyEndsWithNL text := by
  rw [transform_content_eq]
  by_cases he : pyEndsWithNL text = true
  · rw [if_pos he, he]
    simp only
    exact endsNL_concat_nl _
  · have he2 : pyEndsWithNL text = false := by simpa using he
    rw [if_neg he, he2]
    simp only
    by_cases hls : pySplitlines text = []
    · rw [hls, transformLines_nil]
      rfl
    · have hlastlines : ∀ x, (pySplitlines text).getLast? = some x → x ≠ [] :=
        splitlines_last_ne_nil text [] hnl he2
      have hout_ne : (transformLines (pySplitlines text)).1 ≠ [] := by
        intro h0
        have hlen := transformLines_length (pySplitlines text)
        rw [h0] at hlen
        exact hls (List.length_eq_zero.mp hlen.symm)
      obtain ⟨y, hy⟩ : ∃ y, (transformLines (pySplitlines text)).1.getLast? = some y :=
        ⟨_, List.getLast?_eq_getLast_of_ne_nil hout_ne⟩
      have hyne := transformLines_last_ne_nil (pySplitlines text) hlastlines y hy
      have hjoin := joinNL_last _ y hy hyne
      obtain ⟨c0, hc0⟩ : ∃ c0, y.getLast? = some c0 :=
        ⟨_, List.getLast?_eq_getLast_of_ne_nil hyne⟩
      have hc0mem : c0 ∈ y := gl_mem y c0 hc0
      have hymem : y ∈ (transformLines (pySplitlines text)).1 := gl_mem _ y hy
      have hbf := transformLines_breakfree (pySplitlines text)
        (splitlines_breakfree text) y hymem c0 hc0mem
      have hc0ne : c0 ≠ '\n' := by
        intro h0
        rw [h0] at hbf
        simp [isLineBreak] at hbf
      unfold pyEndsWithNL
      rw [hjoin, hc0]
      simp [hc0ne]

theorem transform_content_fst (text : List Char) :
    (transform_content text).1 =
      if pyEndsWithNL text then joinNL (transformLines (pySplitlines text)).1 ++ ['\n']
      else joinNL (transformLines (pySplitlines text)).1 := rfl

theorem transform_content_snd (text : List Char) :
    (transform_content text).2 = (transformLines (pySplitlines text)).2 := rfl

/-! ## Claims -/

/-- C1 counterexample: on the input `"a\rb"` (a carriage-return line
boundary) `transform_content` reports `changed = false`, yet the output
`"a\nb"` is not byte-identical to the input — Python `splitlines` consumes
the CR and the joiner replaces it with a newline. -/
theorem claim_C1_counterexample :
    (transform_content ['a', '\r', 'b']).2 = false ∧
    (transform_content ['a', '\r', 'b']).1 ≠ ['a', '\r', 'b'] ∧
    (transform_content ['a', '\r', 'b']).1 = ['a', '\n', 'b'] := by
  refine ⟨by decide, by decide, by decide⟩

/-- C1 (amended): if `transform_content` returns the changed flag as false
and every line-break character of the input text is the newline character
`'\n'`, then the returned output text is byte-identical to the input text.
(The unamended claim fails on inputs with other line terminators such as
CR, CRLF, VT, FF, NEL: see the counterexample.) -/
theorem claim_C1 (text : List Char)
    (hnl : ∀ c ∈ text, isLineBreak c = true → c = '\n')
    (hch : (transform_content text).2 = false) :
    (transform_content text).1 = text := by
  rw [transform_content_snd] at hch
  have hfst := transformLines_fst_of_not_changed (pySplitlines text) hch
  rw [transform_content_fst, hfst]
  have hrec := splitlines_reconstruct text hnl
  by_cases he : pyEndsWithNL text = true
  · rw [if_pos he] at hrec ⊢
    exact hrec
  · rw [if_neg he] at hrec ⊢
    rw [List.append_nil] at hrec
    exact hrec

/-- C1 witness: on the newline-only input `"ab\n"` the transformation
reports no change and returns the input unchanged. -/
theorem claim_C1_witness :
    (∀ c ∈ ['a', 'b', '\n'], isLineBreak c = true → c = '\n') ∧
    (transform_content ['a', 'b', '\n']).2 = false ∧
    (transform_content ['a', 'b', '\n']).1 = ['a', 'b', '\n'] :=
  ⟨by decide, by decide, claim_C1 ['a', 'b', '\n'] (by decide) (by decide)⟩

/-- C2: every line converted by the scan (a trigger line, matched by
`SAFETY_START_RE`, or a continuation line, matched by
`FOLLOWING_COMMENT_RE`) decomposes as captured indent, the marker pair
`//`, and a remainder; the converted line is exactly that decomposition
with one extra `/` inserted immediately after the marker pair — the
indent and the remainder are preserved verbatim, and no other character
is altered, added, or removed. -/
theorem claim_C2 (line ind : List Char)
    (h : safetyStartMatch line = some ind ∨ followingCommentMatch line = some ind) :
    line = ind ++ '/' :: '/' :: line.drop (ind.length + 2) ∧
    convertLine ind line = ind ++ '/' :: '/' :: '/' :: line.drop (ind.length + 2) := by
  constructor
  · rcases h with h | h
    · exact ssm_decomp line ind h
    · exact fcm_decomp line ind h
  · unfold convertLine
    simp

/-- C2 witness: the conversion of the concrete trigger line
`"  // SAFETY: x"`. -/
theorem claim_C2_witness :
    "  // SAFETY: x".data =
      [' ', ' '] ++ '/' :: '/' :: ("  // SAFETY: x".data.drop ([' ', ' '].length + 2)) ∧
    convertLine [' ', ' '] "  // SAFETY: x".data =
      [' ', ' '] ++ '/' :: '/' :: '/' :: ("  // SAFETY: x".data.drop ([' ', ' '].length + 2)) :=
  claim_C2 "  // SAFETY: x".data [' ', ' '] (Or.inl (by decide))

/-- C3: `transform_content` is idempotent — applying it to the output text
of a first application returns that same text with `changed = false`
(already-converted doc lines never re-match the trigger or continuation
patterns). -/
theorem claim_C3 (text : List Char) :
    transform_content ((transform_content text).1) = ((transform_content text).1, false) := by
  apply transform_content_id
  · intro l hl
    have hbf_out : ∀ l2 ∈ (transformLines (pySplitlines text)).1, ∀ c ∈ l2,
        isLineBreak c = false :=
      transformLines_breakfree _ (splitlines_breakfree text)
    have hnotrig := transformLines_no_trigger (pySplitlines text)
    rw [transform_content_fst] at hl
    by_cases he : pyEndsWithNL text = true
    · rw [if_pos he] at hl
      rcases splitlines_join_mem ['\n'] (Or.inr rfl) _ hbf_out l hl with h1 | h1
      · exact hnotrig l h1
      · subst h1; rfl
    · rw [if_neg he] at hl
      have hmem := splitlines_join_mem [] (Or.inl rfl) _ hbf_out
      rw [List.append_nil] at hmem
      rcases hmem l hl with h1 | h1
      · exact hnotrig l h1
      · subst h1; rfl
  · exact transform_result_breaks text

/-- C4: non-interference.  A doc-comment line (`///…` or `//!…`, even one
containing the tag text), a blank line, and a non-comment line match
neither the trigger nor the continuation pattern; a line failing the
trigger pattern is copied byte-identically by the outer scan; a line
failing the continuation pattern terminates the in-progress continuation
run and is left in place for reprocessing. -/
theorem claim_C4 :
    (∀ line, isDocComment line = true →
      safetyStartMatch line = none ∧ followingCommentMatch line = none) ∧
    (∀ line, line.all isPySpace = true →
      safetyStartMatch line = none ∧ followingCommentMatch line = none) ∧
    (∀ line, isCommentStart line = false →
      safetyStartMatch line = none ∧ followingCommentMatch line = none) ∧
    (∀ (line : List Char) (rest : List (List Char)), safetyStartMatch line = none →
      transformLines (line :: rest) =
        (line :: (transformLines rest).1, (transformLines rest).2)) ∧
    (∀ (line : List Char) (rest : List (List Char)), followingCommentMatch line = none →
      consumeFollowing (line :: rest) = ([], line :: rest)) :=
  ⟨doc_no_match, blank_no_match, noncomment_no_match,
   transformLines_cons_none, consumeFollowing_cons_none⟩

/-- C4 witness: a doc line containing the tag matches nothing, a blank line
and a declaration line match nothing, and a non-trigger line is copied
verbatim and stops a continuation run. -/
theorem claim_C4_witness :
    (safetyStartMatch "/// SAFETY: x".data = none ∧
     followingCommentMatch "/// SAFETY: x".data = none) ∧
    (safetyStartMatch "   ".data = none ∧ followingCommentMatch "   ".data = none) ∧
    (safetyStartMatch "fn f();".data = none ∧
     followingCommentMatch "fn f();".data = none) ∧
    transformLines ["fn f();".data] = (["fn f();".data], false) ∧
    consumeFollowing ["fn f();".data] = ([], ["fn f();".data]) := by
  refine ⟨claim_C4.1 _ (by decide), claim_C4.2.1 _ (by decide),
    claim_C4.2.2.1 _ (by decide), ?_, claim_C4.2.2.2.2 "fn f();".data [] (by decide)⟩
  rw [claim_C4.2.2.2.1 "fn f();".data [] (by decide), transformLines_nil]

/-- C5 counterexample: the input `"a\r"` ends with a line terminator (CR is
discarded as a terminator by the line splitter), yet the output `"a"` ends
with no line terminator at all — the code only checks for a trailing
`'\n'`. -/
theorem claim_C5_counterexample :
    isLineBreak '\r' = true ∧
    transform_content ['a', '\r'] = (['a'], false) ∧
    (∀ c ∈ (transform_content ['a', '\r']).1, isLineBreak c = false) := by
  refine ⟨by decide, by decide, by decide⟩

/-- C5 (amended): every line-break character of the output is `'\n'`; for
an input whose line breaks are all `'\n'`, the output ends with `'\n'` iff
the input does; and the trailing `'\n'`, when present, is the single
terminator appended after joining the lines (none is appended otherwise).
(The unamended claim fails for inputs ending in another terminator such as
CR: see the counterexample.) -/
theorem claim_C5 (text : List Char) :
    (∀ c ∈ (transform_content text).1, isLineBreak c = true → c = '\n') ∧
    ((∀ c ∈ text, isLineBreak c = true → c = '\n') →
      pyEndsWithNL (transform_content text).1 = pyEndsWithNL text) ∧
    (pyEndsWithNL text = true →
      (transform_content text).1 = joinNL (transformLines (pySplitlines text)).1 ++ ['\n']) ∧
    (pyEndsWithNL text = false →
      (transform_content text).1 = joinNL (transformLines (pySplitlines text)).1) :=
  ⟨transform_result_breaks text, transform_endsNL text,
   fun he => by rw [transform_content_fst, if_pos he],
   fun he => by rw [transform_content_fst, if_neg (by simp [he])]⟩

/-- C5 witness: the trailing-newline fidelity at the concrete input
`"a\n"`. -/
theorem claim_C5_witness :
    pyEndsWithNL (transform_content ['a', '\n']).1 = pyEndsWithNL ['a', '\n'] ∧
    (transform_content ['a', '\n']).1 =
      joinNL (transformLines (pySplitlines ['a', '\n'])).1 ++ ['\n'] :=
  ⟨(claim_C5 ['a', '\n']).2.1 (by decide), (claim_C5 ['a', '\n']).2.2.1 (by decide)⟩

/-- C6 counterexample: the line `"//  SAFETY: x"` (two spaces between the
marker and the tag) is matched by `SAFETY_START_RE` (whose pattern uses
`\s*`), but it does not fit the claim's description "at most a single
optional whitespace character" — while an ordinary single-space line does
fit it. -/
theorem claim_C6_counterexample :
    safetyStartMatch "//  SAFETY: x".data = some [] ∧
    specTriggerSingleWs "//  SAFETY: x".data = false ∧
    specTriggerSingleWs "// SAFETY: x".data = true := by
  refine ⟨by decide, by decide, by decide⟩

/-- C6 (amended): a line containing no line-break character matches the
trigger pattern iff it consists of its maximal whitespace prefix (the
captured indent, with no other trimming or normalisation), the plain
marker pair `//` (necessarily not followed by `/` or `!`), ANY possibly
empty run of whitespace characters, and then the literal case-sensitive
tag `SAFETY:` followed by arbitrary text; and the captured indent is
always exactly the maximal whitespace prefix.  (The original claim said
"at most a single optional whitespace character" before the tag, but the
pattern uses `\s*`: see the counterexample.) -/
theorem claim_C6 (line : List Char) (hbf : ∀ c ∈ line, isLineBreak c = false) :
    ((∃ ind, safetyStartMatch line = some ind) ↔
      ∃ ws tail,
        line = line.takeWhile isPySpace ++ '/' :: '/' :: (ws ++ (safetyTag ++ tail)) ∧
        ∀ c ∈ ws, isPySpace c = true) ∧
    ∀ ind, safetyStartMatch line = some ind → ind = line.takeWhile isPySpace := by
  refine ⟨⟨?_, ?_⟩, ?_⟩
  · rintro ⟨ind, h⟩
    exact ssm_chars_of_some line ind h
  · rintro ⟨ws, tail, hline, hws⟩
    exact ⟨_, ssm_some_of_chars line ws tail hbf hws hline⟩
  · intro ind h
    exact ssm_indent line ind h

/-- C6 witness: the characterisation applied to the concrete line
`"// SAFETY: ok"`. -/
theorem claim_C6_witness :
    ((∃ ind, safetyStartMatch "// SAFETY: ok".data = some ind) ↔
      ∃ ws tail,
        "// SAFETY: ok".data =
          "// SAFETY: ok".data.takeWhile isPySpace ++ '/' :: '/' :: (ws ++ (safetyTag ++ tail)) ∧
        ∀ c ∈ ws, isPySpace c = true) ∧
    ∀ ind, safetyStartMatch "// SAFETY: ok".data = some ind →
      ind = "// SAFETY: ok".data.takeWhile isPySpace :=
  claim_C6 "// SAFETY: ok".data (by decide)

/-- C7: when a trigger line starts a block, the continuation run consumes
exactly the maximal prefix of following lines matching the continuation
pattern and stops at the first line that fails it; that stopping line is
not copied blindly — it and everything after it are handed back to the
same scanning loop, processed independently of the finished block (so it
may itself start a new trigger block). -/
theorem claim_C7 (l ind l2 : List Char) (pre post : List (List Char))
    (hm : safetyStartMatch l = some ind)
    (hpre : ∀ x ∈ pre, (followingCommentMatch x).isSome = true)
    (hl2 : followingCommentMatch l2 = none) :
    transformLines (l :: (pre ++ l2 :: post)) =
      (convertLine ind l :: (pre.map contConvert ++ (transformLines (l2 :: post)).1),
       true) := by
  rw [transformLines_cons_some l ind (pre ++ l2 :: post) hm,
    consumeFollowing_stops pre l2 post hpre hl2]

/-- C7 witness: a concrete four-line block — trigger, one continuation, a
doc line that stops the run, and a second trigger that is reprocessed. -/
theorem claim_C7_witness :
    transformLines
        ["// SAFETY: a".data, "// b".data, "///c".data, "// SAFETY: d".data] =
      (convertLine [] "// SAFETY: a".data ::
        ([ "// b".data ].map contConvert ++
          (transformLines ["///c".data, "// SAFETY: d".data]).1),
       true) :=
  claim_C7 "// SAFETY: a".data [] "///c".data ["// b".data] ["// SAFETY: d".data]
    (by decide) (by decide) (by decide)

/-- C10: the outer scan terminates — the cursor strictly advances in both
branches (by one line when the cursor line does not match the trigger, and
past the consumed block, at least the trigger line itself, when it does),
and any fuel of at least the number of remaining lines computes the same
result, so the embedded loop is total. -/
theorem claim_C10 (l : List Char) (rest ls : List (List Char)) (fuel : Nat)
    (hfuel : ls.length ≤ fuel) :
    rest.length < (l :: rest).length ∧
    ((consumeFollowing rest).2).length < (l :: rest).length ∧
    transformLinesF fuel ls = transformLines ls := by
  refine ⟨by simp, ?_, ?_⟩
  · have := consumeFollowing_len rest
    simp only [List.length_cons]
    omega
  · exact transformLinesF_fuel_irrel fuel ls.length ls hfuel (Nat.le_refl _)

/-- C10 witness: the strict decrease and fuel-irrelevance at a concrete
two-line input. -/
theorem claim_C10_witness :
    [['b']].length < (['a'] :: [['b']]).length ∧
    ((consumeFollowing [['b']]).2).length < (['a'] :: [['b']]).length ∧
    transformLinesF 5 [['a'], ['b']] = transformLines [['a'], ['b']] :=
  claim_C10 ['a'] [['b']] [['a'], ['b']] 5 (by decide)

/-! ### The repository walk: pruning and error handling -/

theorem should_skip_dir_concat (dirpath : List String) (x : String) :
    should_skip_dir (dirpath ++ [x]) = skip_names.contains x := by
  unfold should_skip_dir
  rw [List.getLast?_concat]

theorem mergeOutcome_writes (a b : Outcome) :
    (mergeOutcome a b).writes = a.writes ++ b.writes := rfl

theorem mergeOutcome_assoc (a b c : Outcome) :
    mergeOutcome (mergeOutcome a b) c = mergeOutcome a (mergeOutcome b c) := by
  unfold mergeOutcome
  simp [Nat.add_assoc]

theorem treeSize_pos (t : FSTree) : 1 ≤ treeSize t := by
  cases t with
  | dir n subs files => rw [treeSize]; omega

theorem dropLast_cons_ne {α : Type} (a : α) (q : List α) (h : q ≠ []) :
    (a :: q).dropLast = a :: q.dropLast := by
  cases q with
  | nil => exact absurd rfl h
  | cons b t => rfl

/-- Every file path the walk visits sits strictly inside non-pruned
directories: no directory component of a visited path (relative to the
root) has a name in `skip_names`. -/
theorem walk_shape : ∀ N : Nat,
    (∀ (dirpath : List String) (t : FSTree), treeSize t ≤ N →
      ∀ p ∈ visitedPaths dirpath t, ∃ q, p = dirpath ++ q ∧ q ≠ [] ∧
        q.dropLast.all (fun d => !(skip_names.contains d)) = true) ∧
    (∀ (dirpath : List String) (s : FSForest), forestSize s ≤ N →
      ∀ p ∈ visitedForest dirpath s, ∃ q, p = dirpath ++ q ∧ q ≠ [] ∧
        q.dropLast.all (fun d => !(skip_names.contains d)) = true) := by
  intro N
  induction N using Nat.strong_induction_on with
  | _ N ih =>
    have htree : ∀ (dirpath : List String) (t : FSTree), treeSize t ≤ N →
        ∀ p ∈ visitedPaths dirpath t, ∃ q, p = dirpath ++ q ∧ q ≠ [] ∧
          q.dropLast.all (fun d => !(skip_names.contains d)) = true := by
      intro dirpath t hsize p hp
      cases t with
      | dir n subs files =>
        rw [visitedPaths] at hp
        rcases List.mem_append.mp hp with h1 | h1
        · simp only [List.mem_map, List.mem_filter] at h1
          obtain ⟨f, hf, hpf⟩ := h1
          exact ⟨[f.name], hpf.symm, by simp, by simp⟩
        · have hfs : forestSize subs < N := by
            rw [treeSize] at hsize
            omega
          exact (ih (forestSize subs) hfs).2 dirpath subs (Nat.le_refl _) p h1
    refine ⟨htree, ?_⟩
    intro dirpath s hsize p hp
    cases s with
    | nil =>
      rw [visitedForest] at hp
      simp at hp
    | cons s rest =>
      rw [visitedForest] at hp
      rw [forestSize] at hsize
      rcases List.mem_append.mp hp with h1 | h1
      · by_cases hskip : should_skip_dir (dirpath ++ [treeName s]) = true
        · rw [if_pos hskip] at h1
          simp at h1
        · rw [if_neg hskip] at h1
          obtain ⟨q, hq1, hq2, hq3⟩ :=
            htree (dirpath ++ [treeName s]) s (by omega) p h1
          refine ⟨treeName s :: q, ?_, by simp, ?_⟩
          · rw [hq1]
            simp
          · rw [dropLast_cons_ne (treeName s) q hq2]
            rw [List.all_cons, hq3]
            have hns : skip_names.contains (treeName s) = false := by
              rw [← should_skip_dir_concat dirpath (treeName s)]
              simpa using hskip
            have hmem : treeName s ∉ skip_names := by simpa using hns
            simp [hmem]
      · have hrest : forestSize rest < N := by
          have := treeSize_pos s
          omega
        exact (ih (forestSize rest) hrest).2 dirpath rest (Nat.le_refl _) p h1

theorem processFile_not_rs (dirpath : List String) (f : SrcFile) (dry verbose : Bool)
    (h : hasRsSuffix f.name = false) :
    processFile dirpath f dry verbose = ⟨0, [], []⟩ := by
  unfold processFile
  rw [if_pos h]

theorem processFile_err (dirpath : List String) (f : SrcFile) (dry verbose : Bool)
    (e : String) (hrs : hasRsSuffix f.name = true) (he : f.readResult = .error e) :
    processFile dirpath f dry verbose =
      ⟨0, if verbose then [mkSkipLog (dirpath ++ [f.name]) e] else [], []⟩ := by
  unfold processFile
  rw [if_neg (by simp [hrs]), he]

theorem processFile_ok_changed (dirpath : List String) (f : SrcFile) (dry verbose : Bool)
    (src : List Char) (hrs : hasRsSuffix f.name = true) (hok : f.readResult = .ok src)
    (hch : (transform_content src).2 = true) :
    processFile dirpath f dry verbose =
      ⟨1, if verbose || dry then [mkUpdateLog dry (dirpath ++ [f.name])] else [],
       if dry then [] else [(dirpath ++ [f.name], (transform_content src).1)]⟩ := by
  unfold processFile
  rw [if_neg (by simp [hrs]), hok]
  simp only [hch, if_true]

theorem processFile_ok_unchanged (dirpath : List String) (f : SrcFile) (dry verbose : Bool)
    (src : List Char) (hrs : hasRsSuffix f.name = true) (hok : f.readResult = .ok src)
    (hch : (transform_content src).2 = false) :
    processFile dirpath f dry verbose = ⟨0, [], []⟩ := by
  unfold processFile
  rw [if_neg (by simp [hrs]), hok]
  simp only [hch]
  rfl

theorem processFile_writes (dirpath : List String) (f : SrcFile) (dry verbose : Bool)
    (p : List String) (c : List Char)
    (h : (p, c) ∈ (processFile dirpath f dry verbose).writes) :
    hasRsSuffix f.name = true ∧ p = dirpath ++ [f.name] := by
  by_cases hrs : hasRsSuffix f.name = true
  · refine ⟨hrs, ?_⟩
    cases hr : f.readResult with
    | error e =>
      rw [processFile_err dirpath f dry verbose e hrs hr] at h
      simp at h
    | ok src =>
      by_cases hch : (transform_content src).2 = true
      · rw [processFile_ok_changed dirpath f dry verbose src hrs hr hch] at h
        by_cases hd : dry = true
        · rw [if_pos hd] at h
          simp at h
        · rw [if_neg hd] at h
          simp only [List.mem_singleton, Prod.mk.injEq] at h
          exact h.1
      · rw [processFile_ok_unchanged dirpath f dry verbose src hrs hr
          (by simpa using hch)] at h
        simp at h
  · rw [processFile_not_rs dirpath f dry verbose (by simpa using hrs)] at h
    simp at h

theorem processFiles_writes (dirpath : List String) (fs : List SrcFile)
    (dry verbose : Bool) (p : List String) (c : List Char) :
    (p, c) ∈ (processFiles dirpath fs dry verbose).writes →
    ∃ f ∈ fs, hasRsSuffix f.name = true ∧ p = dirpath ++ [f.name] := by
  induction fs with
  | nil =>
    intro h
    simp [processFiles] at h
  | cons f rest ih =>
    intro h
    rw [processFiles, mergeOutcome_writes] at h
    rcases List.mem_append.mp h with h1 | h1
    · obtain ⟨hrs, hp⟩ := processFile_writes dirpath f dry verbose p c h1
      exact ⟨f, by simp, hrs, hp⟩
    · obtain ⟨f2, hf2, hrs, hp⟩ := ih h1
      exact ⟨f2, by simp [hf2], hrs, hp⟩

/-- Every write performed by the walk targets a visited file. -/
theorem walk_writes : ∀ N : Nat,
    (∀ (dirpath : List String) (t : FSTree), treeSize t ≤ N →
      ∀ (dry verbose : Bool) (p : List String) (c : List Char),
        (p, c) ∈ (processDir dirpath t dry verbose).writes → p ∈ visitedPaths dirpath t) ∧
    (∀ (dirpath : List String) (s : FSForest), forestSize s ≤ N →
      ∀ (dry verbose : Bool) (p : List String) (c : List Char),
        (p, c) ∈ (processForest dirpath s dry verbose).writes →
          p ∈ visitedForest dirpath s) := by
  intro N
  induction N using Nat.strong_induction_on with
  | _ N ih =>
    have htree : ∀ (dirpath : List String) (t : FSTree), treeSize t ≤ N →
        ∀ (dry verbose : Bool) (p : List String) (c : List Char),
          (p, c) ∈ (processDir dirpath t dry verbose).writes →
            p ∈ visitedPaths dirpath t := by
      intro dirpath t hsize dry verbose p c hp
      cases t with
      | dir n subs files =>
        rw [processDir, mergeOutcome_writes] at hp
        rw [visitedPaths]
        rcases List.mem_append.mp hp with h1 | h1
        · obtain ⟨f, hf, hrs, hpf⟩ := processFiles_writes dirpath files dry verbose p c h1
          refine List.mem_append.mpr (Or.inl ?_)
          simp only [List.mem_map, List.mem_filter]
          exact ⟨f, ⟨hf, hrs⟩, hpf.symm⟩
        · have hfs : forestSize subs < N := by
            rw [treeSize] at hsize
            omega
          exact List.mem_append.mpr (Or.inr
            ((ih (forestSize subs) hfs).2 dirpath subs (Nat.le_refl _) dry verbose p c h1))
    refine ⟨htree, ?_⟩
    intro dirpath s hsize dry verbose p c hp
    cases s with
    | nil =>
      rw [processForest] at hp
      simp at hp
    | cons s rest =>
      rw [processForest, mergeOutcome_writes] at hp
      rw [forestSize] at hsize
      rw [visitedForest]
      rcases List.mem_append.mp hp with h1 | h1
      · by_cases hskip : should_skip_dir (dirpath ++ [treeName s]) = true
        · rw [if_pos hskip] at h1
          simp at h1
        · rw [if_neg hskip] at h1
          refine List.mem_append.mpr (Or.inl ?_)
          rw [if_neg hskip]
          exact htree (dirpath ++ [treeName s]) s (by omega) dry verbose p c h1
      · have hrest : forestSize rest < N := by
          have := treeSize_pos s
          omega
        exact List.mem_append.mpr (Or.inr
          ((ih (forestSize rest) hrest).2 dirpath rest (Nat.le_refl _) dry verbose p c h1))

/-- C8: during the repository walk, directories whose name is in the fixed
skip set are pruned before recursing, so every file the walk reads has no
skip-named directory component (relative to the root), and every file the
walk writes is one of the files it reads — hence no file beneath a
skip-named directory, at any depth, is ever read, transformed, or
written. -/
theorem claim_C8 (t : FSTree) :
    (∀ p ∈ walkVisited t,
      p.dropLast.all (fun d => !(skip_names.contains d)) = true) ∧
    ∀ (dry verbose : Bool) (p : List String) (c : List Char),
      (p, c) ∈ (process_repo t dry verbose).writes → p ∈ walkVisited t := by
  constructor
  · intro p hp
    obtain ⟨q, hq1, _, hq3⟩ :=
      (walk_shape (treeSize t)).1 [] t (Nat.le_refl _) p hp
    rw [hq1]
    simpa using hq3
  · intro dry verbose p c hp
    exact (walk_writes (treeSize t)).1 [] t (Nat.le_refl _) dry verbose p c hp

/-- C8 witness: in the concrete repository, only `src/lib.rs` is visited —
`target/gen.rs` is never read although it holds a SAFETY block — and the
visited path crosses no skip-named directory. -/
theorem claim_C8_witness :
    walkVisited demoTree = [["src", "lib.rs"]] ∧
    ["src", "lib.rs"].dropLast.all (fun d => !(skip_names.contains d)) = true ∧
    (process_repo demoTree false false).writes =
      [(["src", "lib.rs"], (transform_content "// SAFETY: l".data).1)] ∧
    ["src", "lib.rs"] ∈ walkVisited demoTree :=
  ⟨by decide, (claim_C8 demoTree).1 ["src", "lib.rs"] (by decide), by decide,
   (claim_C8 demoTree).2 false false ["src", "lib.rs"]
     (transform_content "// SAFETY: l".data).1 (by decide)⟩

/-- C9: if reading a (`.rs`) file fails, the file is skipped and the walk
continues with the remaining files and directories exactly as if the file
were absent, except that a diagnostic naming the file and the failure is
prepended iff verbose mode is on; the failure is never fatal, the file
contributes nothing to the changed-file count, and nothing is written for
it. -/
theorem claim_C9 (dirpath : List String) (n : String) (subs : FSForest)
    (f : SrcFile) (fs : List SrcFile) (dry verbose : Bool) (e : String)
    (herr : f.readResult = .error e) (hrs : hasRsSuffix f.name = true) :
    processDir dirpath (.dir n subs (f :: fs)) dry verbose =
      mergeOutcome
        ⟨0, if verbose then [mkSkipLog (dirpath ++ [f.name]) e] else [], []⟩
        (processDir dirpath (.dir n subs fs) dry verbose) := by
  have hf : processFile dirpath f dry verbose =
      ⟨0, if verbose then [mkSkipLog (dirpath ++ [f.name]) e] else [], []⟩ := by
    unfold processFile
    rw [if_neg (by simp [hrs]), herr]
  show mergeOutcome (processFiles dirpath (f :: fs) dry verbose)
      (processForest dirpath subs dry verbose) = _
  rw [show processFiles dirpath (f :: fs) dry verbose =
      mergeOutcome (processFile dirpath f dry verbose)
        (processFiles dirpath fs dry verbose) from rfl,
    hf, mergeOutcome_assoc]
  rfl

/-- C9 witness: a directory with an unreadable `.rs` file followed by a
convertible one — the failure contributes the verbose diagnostic only, and
the rest of the walk proceeds unchanged. -/
theorem claim_C9_witness :
    processDir [] (.dir "repo" .nil
        [⟨"bad.rs", .error "boom"⟩, ⟨"ok.rs", .ok "// SAFETY: x".data⟩]) false true =
      mergeOutcome ⟨0, [mkSkipLog ["bad.rs"] "boom"], []⟩
        (processDir [] (.dir "repo" .nil [⟨"ok.rs", .ok "// SAFETY: x".data⟩]) false true) :=
  claim_C9 [] "repo" .nil ⟨"bad.rs", .error "boom"⟩
    [⟨"ok.rs", .ok "// SAFETY: x".data⟩] false true "boom" rfl (by decide)

end ConvertSafety
